import Mathlib

/-!
Verification of the search-orchestration core of the PriceWiseApi backend
(`backend/app/search_service.py`) against its natural-language specification.

The Python functions under scrutiny are shallowly embedded as executable Lean
functions over `List Char` / `String`.  Modelling conventions, stated once here:

* Python's `re` module character classes are modelled on the alphabets the
  program actually manipulates: `\d` is modelled as the ASCII digits
  (`Char.isDigit`), `\w` as ASCII alphanumerics plus underscore plus the
  Russian Cyrillic letters, and `\s` as the standard Unicode whitespace set
  recognised by Python.  `str.lower` is modelled on ASCII and Cyrillic.
* Each concrete regular expression of the source is hand-compiled into a
  deterministic matcher that reproduces Python's leftmost scan, ordered
  alternation and greedy-with-backtracking repetition for that expression.
  The original pattern text is quoted in the doc comment of each matcher.
* `html.unescape` is modelled for the five common named entities; inputs in
  all concrete evaluations below contain no entities at all.
* Recursions that are not structural take an explicit fuel argument (always
  called with fuel at least the length of the scanned list), so that every
  definition reduces inside the kernel.
-/

set_option maxRecDepth 20000

namespace PriceWise

/-- Whitespace characters matched by Python's `\s` (and stripped by
`str.strip()`): ASCII control whitespace, NBSP and the Unicode space set. -/
def isPySpace (c : Char) : Bool :=
  let n := c.toNat
  n = 32 ∨ (9 ≤ n ∧ n ≤ 13) ∨ (28 ≤ n ∧ n ≤ 31) ∨ n = 0x85 ∨ n = 0xa0 ∨
  n = 0x1680 ∨ (0x2000 ≤ n ∧ n ≤ 0x200a) ∨ n = 0x2028 ∨ n = 0x2029 ∨
  n = 0x202f ∨ n = 0x205f ∨ n = 0x3000

/-- Lowercasing as performed by Python's `str.lower`, modelled on the ASCII
and Russian Cyrillic ranges (the alphabets handled by this program). -/
def pyLower (c : Char) : Char :=
  if 'A' ≤ c ∧ c ≤ 'Z' then Char.ofNat (c.toNat + 32)
  else if 'А' ≤ c ∧ c ≤ 'Я' then Char.ofNat (c.toNat + 32)
  else if c = 'Ё' then 'ё'
  else c

/-- Word characters matched by Python's `\w`, modelled as ASCII alphanumerics,
the underscore, and the Russian Cyrillic letters. -/
def pyIsWord (c : Char) : Bool :=
  c.isDigit ∨ ('a' ≤ c ∧ c ≤ 'z') ∨ ('A' ≤ c ∧ c ≤ 'Z') ∨ c = '_' ∨
  ('а' ≤ c ∧ c ≤ 'я') ∨ ('А' ≤ c ∧ c ≤ 'Я') ∨ c = 'ё' ∨ c = 'Ё'

/-- Characters removed by `_clean_title`'s zero-width / bidi-control class:
U+200B..U+200F, U+202A..U+202C, U+2060. -/
def isZeroWidth (c : Char) : Bool :=
  let n := c.toNat
  (0x200b ≤ n ∧ n ≤ 0x200f) ∨ (0x202a ≤ n ∧ n ≤ 0x202c) ∨ n = 0x2060

/-- Model of Python's `html.unescape`, restricted to the five common named
entities; all other text passes through unchanged. -/
def unescapeHtml : List Char → List Char
  | [] => []
  | '&' :: 'a' :: 'm' :: 'p' :: ';' :: rest => '&' :: unescapeHtml rest
  | '&' :: 'l' :: 't' :: ';' :: rest => '<' :: unescapeHtml rest
  | '&' :: 'g' :: 't' :: ';' :: rest => '>' :: unescapeHtml rest
  | '&' :: 'q' :: 'u' :: 'o' :: 't' :: ';' :: rest => '"' :: unescapeHtml rest
  | '&' :: 'n' :: 'b' :: 's' :: 'p' :: ';' :: rest => Char.ofNat 0xa0 :: unescapeHtml rest
  | c :: rest => c :: unescapeHtml rest

/-- Python `str.strip(chars)`: remove the given characters from both ends. -/
def stripChars (bad : List Char) (l : List Char) : List Char :=
  ((l.dropWhile (fun c => bad.contains c)).reverse.dropWhile
    (fun c => bad.contains c)).reverse

/-- Python `str.strip()` with no argument: strip whitespace from both ends. -/
def pyStrip (l : List Char) : List Char :=
  ((l.dropWhile isPySpace).reverse.dropWhile isPySpace).reverse

/-- Fueled worker for `collapseWs`. -/
def collapseWsF : Nat → List Char → List Char
  | 0, _ => []
  | _, [] => []
  | fuel + 1, c :: rest =>
    if isPySpace c then ' ' :: collapseWsF fuel (rest.dropWhile isPySpace)
    else c :: collapseWsF fuel rest

/-- Model of `re.sub(r"\s+", " ", t)`: every maximal whitespace run becomes a
single space. -/
def collapseWs (l : List Char) : List Char :=
  collapseWsF l.length l

/-- Decidable check that the pattern `pat` occurs at the start of `l`. -/
def startsWithSeq : List Char → List Char → Bool
  | [], _ => true
  | _ :: _, [] => false
  | p :: ps, c :: cs => p = c ∧ startsWithSeq ps cs

/-- Decidable substring containment (`pat` occurs somewhere inside `l`),
the model of Python's `pat in l`. -/
def occursIn (pat : List Char) : List Char → Bool
  | [] => startsWithSeq pat []
  | c :: cs => startsWithSeq pat (c :: cs) ∨ occursIn pat cs

/-- Case-insensitive variant of `startsWithSeq` (pattern given lowercase). -/
def startsWithCi : List Char → List Char → Bool
  | [], _ => true
  | _ :: _, [] => false
  | p :: ps, c :: cs => p = pyLower c ∧ startsWithCi ps cs

/-! ### Price extraction (`_first_price`, `_prices_from_text`) -/

/-- Numeric value of a list of ASCII digit characters (Python `int(digits)`). -/
def natOfDigits (l : List Char) : Nat :=
  l.foldl (fun a c => a * 10 + (c.toNat - 48)) 0

/-- The separator class `[\s  ]` inside the grouped-thousands
alternative of `price_pat`. -/
def isSepNum (c : Char) : Bool :=
  isPySpace c ∨ c.toNat = 0xa0 ∨ c.toNat = 0x202f

/-- Shared preamble of `_first_price` and `_prices_from_text`: `unescape`,
replace U+00A0 / U+202F / U+2009 by spaces, collapse whitespace, strip. -/
def pfNormalize (raw : List Char) : List Char :=
  pyStrip (collapseWs ((unescapeHtml raw).map
    (fun c => if c.toNat = 0xa0 ∨ c.toNat = 0x202f ∨ c.toNat = 0x2009 then ' ' else c)))

/-- Greedy parse of the repetitions `(?:[\s  ]\d{3})+` following the
lead digits: returns the list of parsed 4-character repetitions and the rest. -/
def parseReps : List Char → List (List Char) × List Char
  | c :: d1 :: d2 :: d3 :: rest =>
    if isSepNum c ∧ d1.isDigit ∧ d2.isDigit ∧ d3.isDigit then
      let r := parseReps rest
      ([c, d1, d2, d3] :: r.1, r.2)
    else ([], c :: d1 :: d2 :: d3 :: rest)
  | l => ([], l)

/-- Backtracking over the repetition count of the grouped-thousands
alternative, most repetitions first (regex greediness).  `rreps` holds the
already-parsed repetitions in reverse order (last one first). -/
def alt1Go (run : List Char) (tail : List Char → Option (List Char)) :
    List (List Char) → List Char → Option (List Char × List Char)
  | [], _ => none
  | lastRep :: prior, rest =>
    match tail rest with
    | some r => some (run ++ ((lastRep :: prior).reverse).flatten, r)
    | none => alt1Go run tail prior (lastRep ++ rest)

/-- Backtracking over the digit count of the plain alternative
`\d{2,maxLen}`, most digits first (regex greediness). -/
def alt2Try (tail : List Char → Option (List Char)) :
    Nat → List Char → Option (List Char × List Char)
  | 0, _ => none
  | j + 1, l =>
    if j + 1 < 2 then none
    else
      let ds := l.take (j + 1)
      if ds.length = j + 1 ∧ ds.all Char.isDigit then
        match tail (l.drop (j + 1)) with
        | some r => some (ds, r)
        | none => alt2Try tail j l
      else alt2Try tail j l

/-- Attempt `price_pat`'s capture group at the current position: the
alternation `\d{1,3}(?:[\s  ]\d{3})+|\d{2,maxLen}` (first
alternative preferred, as in Python), followed by the continuation `tail`
covering the rest of the pattern.  Returns the captured group and the rest of
the subject after the whole match. -/
def group1Match (alt2max : Nat) (tail : List Char → Option (List Char))
    (l : List Char) : Option (List Char × List Char) :=
  let run := l.takeWhile Char.isDigit
  let alt1 :=
    if 1 ≤ run.length ∧ run.length ≤ 3 then
      let pr := parseReps (l.drop run.length)
      alt1Go run tail pr.1.reverse pr.2
    else none
  match alt1 with
  | some res => some res
  | none => alt2Try tail alt2max l

/-- True when the list is empty or starts with a non-word character: the
negative lookahead `(?!\w)`. -/
def notWordHead : List Char → Bool
  | [] => true
  | c :: _ => ¬ pyIsWord c

/-- True when the list is empty or starts with a non-digit: `(?!\d)`. -/
def notDigitHead : List Char → Bool
  | [] => true
  | c :: _ => ¬ c.isDigit

/-- The optional dot of `руб\.?` / `р\.?` (greedy) followed by the lookahead
`(?!\w)`, with backtracking from the dotted to the dotless variant. -/
def dotOpt : List Char → Option (List Char)
  | '.' :: r => if notWordHead r then some r else some ('.' :: r)
  | l => if notWordHead l then some l else none

/-- Model of the currency marker `rub_pat = (?:₽|руб\.?|р\.?)(?!\w)` (re.I):
returns the rest of the subject after the marker. -/
def matchCurrency : List Char → Option (List Char)
  | [] => none
  | c :: rest =>
    if c = '₽' then (if notWordHead rest then some rest else none)
    else if pyLower c = 'р' then
      match rest with
      | u :: b :: r2 =>
        if pyLower u = 'у' ∧ pyLower b = 'б' then dotOpt r2 else dotOpt rest
      | _ => dotOpt rest
    else none

/-- True when the character is the `,` or `.` of the optional fraction
`(?:[,.]\d{1,2})?`. -/
def isFracSep (c : Char) : Bool := c = ',' ∨ c = '.'

/-- Continuation after `price_pat`'s capture group when a currency marker
follows: optional fraction (greedy, two digits preferred), then `\s*`, then
`rub_pat` with its `(?!\w)` lookahead. -/
def tailA (l : List Char) : Option (List Char) :=
  let attempt : List Char → Option (List Char) :=
    fun r => matchCurrency (r.dropWhile isPySpace)
  let f2 : Option (List Char) :=
    match l with
    | p :: d1 :: d2 :: r =>
      if isFracSep p ∧ d1.isDigit ∧ d2.isDigit then attempt r else none
    | _ => none
  match f2 with
  | some res => some res
  | none =>
    let f1 : Option (List Char) :=
      match l with
      | p :: d1 :: r => if isFracSep p ∧ d1.isDigit then attempt r else none
      | _ => none
    match f1 with
    | some res => some res
    | none => attempt l

/-- Continuation after `price_pat`'s capture group in the
currency-before-number branch: optional fraction, then `(?!\d)`. -/
def tailB (l : List Char) : Option (List Char) :=
  let f2 : Option (List Char) :=
    match l with
    | p :: d1 :: d2 :: r =>
      if isFracSep p ∧ d1.isDigit ∧ d2.isDigit then
        (if notDigitHead r then some r else none)
      else none
    | _ => none
  match f2 with
  | some res => some res
  | none =>
    let f1 : Option (List Char) :=
      match l with
      | p :: d1 :: r =>
        if isFracSep p ∧ d1.isDigit then
          (if notDigitHead r then some r else none)
        else none
      | _ => none
    match f1 with
    | some res => some res
    | none => if notDigitHead l then some l else none

/-- Model of `re.search(rf"(?<!\d){price_pat}\s*{rub_pat}", t, re.I)` — the
number-before-currency branch of `_first_price` (`price_pat` uses `\d{2,6}`):
leftmost scan threading the previous character for the lookbehind `(?<!\d)`;
returns the first match's capture group. -/
def searchCur1F : Nat → Option Char → List Char → Option (List Char)
  | 0, _, _ => none
  | fuel + 1, prev, l =>
    let lb : Bool := match prev with | none => true | some c => ¬ c.isDigit
    match (if lb then group1Match 6 tailA l else none) with
    | some gr => some gr.1
    | none =>
      match l with
      | [] => none
      | c :: rest => searchCur1F fuel (some c) rest

/-- Model of `re.search(rf"{rub_pat}\s*{price_pat}(?!\d)", t, re.I)` — the
currency-before-number branch of `_first_price`. -/
def searchCur2F : Nat → List Char → Option (List Char)
  | 0, _ => none
  | fuel + 1, l =>
    let attempt : Option (List Char × List Char) :=
      match matchCurrency l with
      | some afterCur => group1Match 6 tailB (afterCur.dropWhile isPySpace)
      | none => none
    match attempt with
    | some gr => some gr.1
    | none =>
      match l with
      | [] => none
      | _ :: rest => searchCur2F fuel rest

/-- Attempt of `\d{1,3}(?:[\s  ]\d{3})+|\d{4,}` at the current
position (no continuation follows in this pattern). -/
def matchNumC (l : List Char) : Option (List Char × List Char) :=
  let run := l.takeWhile Char.isDigit
  let alt1 :=
    if 1 ≤ run.length ∧ run.length ≤ 3 then
      let pr := parseReps (l.drop run.length)
      match pr.1 with
      | [] => none
      | _ => some (run ++ pr.1.flatten, pr.2)
    else none
  match alt1 with
  | some res => some res
  | none =>
    if 4 ≤ run.length then some (run, l.drop run.length) else none

/-- Model of the `re.finditer(r"\d{1,3}(?:[\s  ]\d{3})+|\d{4,}", t)`
loop of `_first_price`: the first matched number whose digit value lies in
[10, 1000000]. -/
def searchNumF : Nat → List Char → Option Nat
  | 0, _ => none
  | fuel + 1, l =>
    match matchNumC l with
    | some (g, rest) =>
      let val := natOfDigits (g.filter Char.isDigit)
      if 10 ≤ val ∧ val ≤ 1000000 then some val else searchNumF fuel rest
    | none =>
      match l with
      | [] => none
      | _ :: rest => searchNumF fuel rest

/-- Model of `re.search(r"\b(\d{2,6})\b", t)`: leftmost standalone run of two
to six digits delimited by word boundaries; returns the capture group. -/
def searchD26F : Nat → Option Char → List Char → Option (List Char)
  | 0, _, _ => none
  | fuel + 1, prev, l =>
    let boundary : Bool := match prev with | none => true | some c => ¬ pyIsWord c
    let run := l.takeWhile Char.isDigit
    if boundary ∧ 2 ≤ run.length ∧ run.length ≤ 6 ∧ notWordHead (l.drop run.length) then
      some run
    else
      match l with
      | [] => none
      | c :: rest => searchD26F fuel (some c) rest

/-- Embedding of `_first_price` (search_service.py, lines 782-832). -/
def first_price (raw : List Char) : Nat :=
  if raw.isEmpty then 0
  else
    let t := pfNormalize raw
    let b1 : Option Nat :=
      match searchCur1F (t.length + 1) none t with
      | some g =>
        let v := natOfDigits (g.filter Char.isDigit)
        if 10 ≤ v ∧ v ≤ 1000000 then some v else none
      | none => none
    match b1 with
    | some v => v
    | none =>
      let b2 : Option Nat :=
        match searchCur2F (t.length + 1) t with
        | some g =>
          let v := natOfDigits (g.filter Char.isDigit)
          if 10 ≤ v ∧ v ≤ 1000000 then some v else none
        | none => none
      match b2 with
      | some v => v
      | none =>
        match searchNumF (t.length + 1) t with
        | some v => v
        | none =>
          match searchD26F (t.length + 1) none t with
          | some g => natOfDigits g
          | none => 0

/-- A Python value as accepted by `_normalize_price`: `None`, a bool, an int,
a float (modelled as a rational; `int()` truncates toward zero), or a
string. -/
inductive PyVal where
  | pynone
  | pybool (b : Bool)
  | pyint (n : Int)
  | pyfloat (q : ℚ)
  | pystr (s : List Char)

/-- Python `int()` applied to a float: truncation toward zero. -/
def pyTrunc (q : ℚ) : Int :=
  if 0 ≤ q then ⌊q⌋ else ⌈q⌉

/-- Embedding of `_normalize_price` (search_service.py, lines 902-918). -/
def normalize_price (value : PyVal) : Int :=
  match value with
  | .pynone => 0
  | .pybool _ => 0
  | .pyint n => if n ≤ 0 ∨ 1000000 < n then 0 else n
  | .pyfloat q =>
    let v := pyTrunc q
    if v ≤ 0 ∨ 1000000 < v then 0 else v
  | .pystr s =>
    let v : Int := first_price s
    if v ≤ 0 ∨ 1000000 < v then 0 else v

/-- One literal-backslash-then-letters-s segment `\\s*` of the broken raw
string pattern: in a Python raw string `"\\s*"` is backslash, backslash, s,
star, and the regex `\\` matches one literal backslash character, so the
subject must contain a literal backslash followed by any number of the letter
s (case-insensitive under re.I). -/
def afterBsS : List Char → Option (List Char)
  | '\\' :: r => some (r.dropWhile (fun c => pyLower c = 's'))
  | _ => none

/-- Check `\\s*` followed by the given case-insensitive letters. -/
def bsMes (pat : List Char) (r : List Char) : Bool :=
  match afterBsS r with
  | some r2 => startsWithCi pat r2
  | none => false

/-- Alternative `/\\s*мес` of `_PRICE_CONTEXT_SKIP` at the current position. -/
def skipAlt1 : List Char → Bool
  | '/' :: r => bsMes ['м', 'е', 'с'] r
  | _ => false

/-- Alternative `в\\s*месяц` of `_PRICE_CONTEXT_SKIP` at the current position. -/
def skipAlt2 : List Char → Bool
  | v :: r => pyLower v = 'в' ∧ bsMes ['м', 'е', 'с', 'я', 'ц'] r
  | _ => false

/-- Alternative `в\\s*мес` of `_PRICE_CONTEXT_SKIP` at the current position. -/
def skipAlt3 : List Char → Bool
  | v :: r => pyLower v = 'в' ∧ bsMes ['м', 'е', 'с'] r
  | _ => false

/-- Alternative `\\bмес\\b` of `_PRICE_CONTEXT_SKIP`: the literal text
backslash, b, м, е, с, backslash, b (letters case-insensitive). -/
def skipAlt4 (l : List Char) : Bool :=
  startsWithCi ['\\', 'b', 'м', 'е', 'с', '\\', 'b'] l

/-- The plain-word alternatives of `_PRICE_CONTEXT_SKIP`. -/
def skipLit (l : List Char) : Bool :=
  startsWithCi "кредит".data l ∨ startsWithCi "рассроч".data l ∨
  startsWithCi "бонус".data l ∨ startsWithCi "балл".data l ∨
  startsWithCi "кэшб".data l ∨ startsWithCi "cashback".data l

/-- Model of `_PRICE_CONTEXT_SKIP.search(context) is not None`
(search_service.py, lines 835-838).  The source pattern is the raw string
`(?:/\\s*мес|в\\s*месяц|в\\s*мес|\\bмес\\b|кредит|рассроч|бонус|балл|кэшб|cashback)`
compiled with re.I; the doubled backslashes inside a raw string make the
first four alternatives require a literal backslash character in the subject
(see `afterBsS` and `skipAlt4`). -/
def containsSkip : List Char → Bool
  | [] => false
  | c :: rest =>
    skipAlt1 (c :: rest) ∨ skipAlt2 (c :: rest) ∨ skipAlt3 (c :: rest) ∨
    skipAlt4 (c :: rest) ∨ skipLit (c :: rest) ∨ containsSkip rest

/-- Fueled worker of `prices_from_text`: Python's `re.finditer` loop with the
±16-character context window.  `revBefore` is the already-scanned text in
reverse, used both for the context and for resuming after a match. -/
def pricesLoopF : Nat → List Char → List Char → List Nat
  | 0, _, _ => []
  | fuel + 1, revBefore, l =>
    match group1Match 7 tailA l with
    | some (g, rest) =>
      let consumed := l.take (l.length - rest.length)
      let context := (revBefore.take 16).reverse ++ consumed ++ rest.take 16
      let others := pricesLoopF fuel (consumed.reverse ++ revBefore) rest
      if containsSkip context then others
      else
        let digits := g.filter Char.isDigit
        if digits.isEmpty then others
        else
          let val := natOfDigits digits
          if 10 ≤ val ∧ val ≤ 1000000 then val :: others else others
    | none =>
      match l with
      | [] => []
      | c :: rest => pricesLoopF fuel (c :: revBefore) rest

/-- Embedding of `_prices_from_text` (search_service.py, lines 841-865); the
`price_pat` of this function uses `\d{2,7}` for the plain alternative. -/
def prices_from_text (raw : List Char) : List Nat :=
  if raw.isEmpty then []
  else
    let t := pfNormalize raw
    if t.isEmpty then []
    else pricesLoopF (t.length + 1) [] t

/-! ### Title cleaning (`_clean_title`, `_clean_ali_title`) -/

/-- The non-breaking space U+00A0. -/
def nbsp : Char := Char.ofNat 0xa0

/-- The characters of `t.strip(" ,; ")` in `_clean_title`. -/
def cleanStripSet : List Char := [' ', ',', ';', nbsp]

/-- True when the list starts with a whitespace character. -/
def spaceHead : List Char → Bool
  | c :: _ => isPySpace c
  | [] => false

/-- The ordered alternatives of the leading-prefix pattern
`^(смартфон|мобильный телефон|сотовый телефон|телефон)\s+` (re.I). -/
def categoryWords : List (List Char) :=
  ["смартфон".data, "мобильный телефон".data, "сотовый телефон".data,
   "телефон".data]

/-- Model of `re.sub(r"^(смартфон|мобильный телефон|сотовый телефон|телефон)\s+",
"", t, flags=re.I)`: anchored at the start, first alternative that is followed
by at least one whitespace character wins, and the greedy `\s+` removes the
whole following whitespace run. -/
def dropCategoryWord (t : List Char) : List Char :=
  match categoryWords.find? (fun w => startsWithCi w t && spaceHead (t.drop w.length)) with
  | some w => (t.drop w.length).dropWhile isPySpace
  | none => t

/-- The literal `б/у` (case-insensitive) followed by the word boundary `\b`;
returns the rest of the subject. -/
def buCore : List Char → Option (List Char)
  | b :: s :: u :: rest =>
    if pyLower b = 'б' ∧ s = '/' ∧ pyLower u = 'у' ∧ notWordHead rest then
      some rest
    else none
  | _ => none

/-- Model of `re.sub(r",?\s*(?<!\()б/у\b", " (б/у)", t, flags=re.I)`.  The
lookbehind `(?<!\()` inspects the character immediately before `б` in the
original subject: when the optional comma or the `\s*` consumed something that
character is a comma or a space, otherwise it is the character before the
match position (threaded as `prev`). -/
def buSubF : Nat → Option Char → List Char → List Char
  | 0, _, _ => []
  | fuel + 1, prev, l =>
    match l with
    | [] => []
    | c :: rest =>
      let res : Option (List Char) :=
        if c = ',' then buCore (rest.dropWhile isPySpace)
        else if isPySpace c then buCore ((c :: rest).dropWhile isPySpace)
        else if prev = some '(' then none
        else buCore (c :: rest)
      match res with
      | some r2 =>
        ' ' :: '(' :: 'б' :: '/' :: 'у' :: ')' :: buSubF fuel (some 'у') r2
      | none => c :: buSubF fuel (some c) rest

/-- Parse of `\s*(\d+\s*/\s*\d+\s*гб)` after a comma (re.I): returns the
captured group (which starts at the first digit) and the rest. -/
def parseGbAfterComma (rest : List Char) : Option (List Char × List Char) :=
  let l1 := rest.dropWhile isPySpace
  let d1 := l1.takeWhile Char.isDigit
  if d1.isEmpty then none
  else
    let l2 := l1.dropWhile Char.isDigit
    let ws2 := l2.takeWhile isPySpace
    match l2.dropWhile isPySpace with
    | '/' :: l4 =>
      let ws3 := l4.takeWhile isPySpace
      let l5 := l4.dropWhile isPySpace
      let d2 := l5.takeWhile Char.isDigit
      if d2.isEmpty then none
      else
        let ws4 := (l5.dropWhile Char.isDigit).takeWhile isPySpace
        match (l5.dropWhile Char.isDigit).dropWhile isPySpace with
        | g :: b :: r =>
          if pyLower g = 'г' ∧ pyLower b = 'б' then
            some (d1 ++ ws2 ++ '/' :: (ws3 ++ d2 ++ ws4 ++ [g, b]), r)
          else none
        | _ => none
    | _ => none

/-- Model of `re.sub(r",\s*(\d+\s*/\s*\d+\s*гб)", r" \1", t, flags=re.I)`. -/
def commaGbSubF : Nat → List Char → List Char
  | 0, _ => []
  | _, [] => []
  | fuel + 1, c :: rest =>
    if c = ',' then
      match parseGbAfterComma rest with
      | some (cap, r) => ' ' :: (cap ++ commaGbSubF fuel r)
      | none => c :: commaGbSubF fuel rest
    else c :: commaGbSubF fuel rest

/-- Model of `re.sub(r"\s+ГБ", " ГБ", t, flags=re.I)`; the replacement is the
literal upper-case ` ГБ`. -/
def gbSubF : Nat → List Char → List Char
  | 0, _ => []
  | _, [] => []
  | fuel + 1, c :: rest =>
    if isPySpace c then
      match (c :: rest).dropWhile isPySpace with
      | g :: b :: r =>
        if pyLower g = 'г' ∧ pyLower b = 'б' then ' ' :: 'Г' :: 'Б' :: gbSubF fuel r
        else c :: gbSubF fuel rest
      | _ => c :: gbSubF fuel rest
    else c :: gbSubF fuel rest

/-- Python `t.replace(pat, repl)`: non-overlapping left-to-right replacement
of every occurrence (the pattern here is always non-empty). -/
def replaceSeqAll (pat repl : List Char) : Nat → List Char → List Char
  | 0, _ => []
  | _, [] => []
  | fuel + 1, c :: rest =>
    if startsWithSeq pat (c :: rest) then
      repl ++ replaceSeqAll pat repl fuel ((c :: rest).drop pat.length)
    else c :: replaceSeqAll pat repl fuel rest

/-- Model of the dangling-parenthesis fix of `_clean_title`:
`if "(б/у" in t and "(б/у)" not in t: t = t.replace("(б/у", "(б/у)")`. -/
def buParenFix (t : List Char) : List Char :=
  if occursIn "(б/у".data t ∧ ¬ occursIn "(б/у)".data t then
    replaceSeqAll "(б/у".data "(б/у)".data t.length t
  else t

/-- Python `h.rsplit(" ", 1)[0]`: everything before the last space character,
or the whole list when it contains no space. -/
def dropAfterLastSpace (h : List Char) : List Char :=
  match h.reverse.dropWhile (fun c => c ≠ ' ') with
  | [] => h
  | _ :: r2 => r2.reverse

/-- Model of the length cap of `_clean_title`:
`if len(t) > 160: t = t[:160].rsplit(" ", 1)[0]`. -/
def truncate160 (t : List Char) : List Char :=
  if 160 < t.length then dropAfterLastSpace (t.take 160) else t

/-- Embedding of `_clean_title` (search_service.py, lines 2103-2128) without
its final length cap. -/
def clean_title_pre (raw : List Char) : List Char :=
  let t := unescapeHtml raw
  let t := t.map (fun c => if c = nbsp then ' ' else c)
  let t := t.filter (fun c => ¬ isZeroWidth c)
  let t := collapseWs (stripChars cleanStripSet t)
  let t := dropCategoryWord t
  let t := buSubF (t.length + 1) none t
  let t := commaGbSubF (t.length + 1) t
  let t := gbSubF (t.length + 1) t
  buParenFix t

/-- Embedding of `_clean_title` (search_service.py, lines 2103-2128). -/
def clean_title (raw : List Char) : List Char :=
  truncate160 (clean_title_pre raw)

/-- Attempt of the AliExpress memory-variant pattern
`\b\d+\s*/\s*\d+\s*гб\b` (re.I) at the current position (the leading `\b` is
checked by the caller): returns the matched text and the rest. -/
def memMatchAt (l : List Char) : Option (List Char × List Char) :=
  let d1 := l.takeWhile Char.isDigit
  if d1.isEmpty then none
  else
    let l1 := l.drop d1.length
    let ws1 := l1.takeWhile isPySpace
    match l1.drop ws1.length with
    | '/' :: l2 =>
      let ws2 := l2.takeWhile isPySpace
      let l3 := l2.drop ws2.length
      let d2 := l3.takeWhile Char.isDigit
      if d2.isEmpty then none
      else
        let l4 := l3.drop d2.length
        let ws3 := l4.takeWhile isPySpace
        match l4.drop ws3.length with
        | g :: b :: r =>
          if pyLower g = 'г' ∧ pyLower b = 'б' ∧ notWordHead r then
            some (d1 ++ ws1 ++ '/' :: (ws2 ++ d2 ++ ws3 ++ [g, b]), r)
          else none
        | _ => none
    | _ => none

/-- Combined model of `mem_rx.findall(t)` and `mem_rx.sub("", t)` (both scan
the same matches): returns the list of matches and the text with the matches
removed.  After a match the previous character for the next word-boundary
check is the match's final `б` (a word letter in either case). -/
def memScanF : Nat → Option Char → List Char → List (List Char) × List Char
  | 0, _, _ => ([], [])
  | fuel + 1, prev, l =>
    match l with
    | [] => ([], [])
    | c :: rest =>
      let boundary : Bool := match prev with | none => true | some p => ¬ pyIsWord p
      match (if boundary then memMatchAt (c :: rest) else none) with
      | some (g, r) =>
        let res := memScanF fuel (some 'б') r
        (g :: res.1, res.2)
      | none =>
        let res := memScanF fuel (some c) rest
        (res.1, c :: res.2)

/-- Model of `re.sub(r"\s*\(б/у\)\s*$", f" {first} (б/у)", t2)` (no re.I):
replaces a trailing `(б/у)` together with its surrounding whitespace. -/
def trailingBuSub (first : List Char) (t2 : List Char) : List Char :=
  let revNoWs := t2.reverse.dropWhile isPySpace
  if startsWithSeq [')', 'у', '/', 'б', '('] revNoWs then
    let before := (revNoWs.drop 5).dropWhile isPySpace
    before.reverse ++ ' ' :: (first ++ (' ' :: '(' :: 'б' :: '/' :: 'у' :: ')' :: []))
  else t2

/-- Model of `re.sub(r"\s+\(", " (", t)`. -/
def spaceParenSubF : Nat → List Char → List Char
  | 0, _ => []
  | _, [] => []
  | fuel + 1, c :: rest =>
    if isPySpace c then
      match (c :: rest).dropWhile isPySpace with
      | '(' :: r => ' ' :: '(' :: spaceParenSubF fuel r
      | _ => c :: spaceParenSubF fuel rest
    else c :: spaceParenSubF fuel rest

/-- Model of `re.sub(r"\(\s+", "(", t)`. -/
def parenSpaceSubF : Nat → List Char → List Char
  | 0, _ => []
  | _, [] => []
  | fuel + 1, c :: rest =>
    if c = '(' ∧ spaceHead rest then '(' :: parenSpaceSubF fuel (rest.dropWhile isPySpace)
    else c :: parenSpaceSubF fuel rest

/-- Embedding of `_clean_ali_title` (search_service.py, lines 2131-2152). -/
def clean_ali_title (raw : List Char) : List Char :=
  let t := clean_title raw
  let scan := memScanF (t.length + 1) none t
  let mems := scan.1
  let t :=
    if 2 ≤ mems.length then
      let first := mems.headD []
      let t2 := collapseWs (pyStrip scan.2)
      let t2 :=
        if occursIn "(б/у)".data t2 then trailingBuSub first t2
        else pyStrip (t2 ++ ' ' :: first)
      pyStrip (collapseWs t2)
    else t
  let t := pyStrip (collapseWs t)
  let t := spaceParenSubF (t.length + 1) t
  parenSpaceSubF (t.length + 1) t

/-! ### Query tokens and token matching -/

/-- The fixed Russian stopword list `_QUERY_STOPWORDS`. -/
def QUERY_STOPWORDS : List (List Char) :=
  ["и".data, "в".data, "во".data, "на".data, "для".data, "по".data, "с".data,
   "со".data, "от".data, "до".data, "а".data, "или".data, "у".data, "к".data,
   "из".data, "без".data, "что".data, "это".data, "как".data, "так".data,
   "же".data]

/-- The synonym table `_TOKEN_SYNONYMS`, as an association list. -/
def TOKEN_SYNONYMS_TABLE : List (List Char × List (List Char)) :=
  [("айфон".data, ["iphone".data]), ("iphone".data, ["айфон".data]),
   ("айпад".data, ["ipad".data]), ("ipad".data, ["айпад".data]),
   ("эппл".data, ["apple".data]), ("эпл".data, ["apple".data]),
   ("apple".data, ["эппл".data, "эпл".data]),
   ("самсунг".data, ["samsung".data]), ("samsung".data, ["самсунг".data]),
   ("сяоми".data, ["xiaomi".data]), ("xiaomi".data, ["сяоми".data]),
   ("хуавей".data, ["huawei".data]), ("huawei".data, ["хуавей".data]),
   ("реалми".data, ["realme".data]), ("realme".data, ["реалми".data])]

/-- Key lookup in the synonym table (the keys are pairwise distinct). -/
def synLookup : List (List Char × List (List Char)) → List Char → List (List Char)
  | [], _ => []
  | (k, vs) :: rest, tok => if tok = k then vs else synLookup rest tok

/-- Python `_TOKEN_SYNONYMS.get(tok, []) or []`. -/
def TOKEN_SYNONYMS (tok : List Char) : List (List Char) :=
  synLookup TOKEN_SYNONYMS_TABLE tok

/-- The filtering loop of `_query_tokens`: drop stopwords and length-one
tokens, de-duplicate preserving order. -/
def tokenFilterLoop : List (List Char) → List (List Char) → List (List Char)
  | [], _ => []
  | t :: rest, seen =>
    if QUERY_STOPWORDS.contains t then tokenFilterLoop rest seen
    else if t.length ≤ 1 then tokenFilterLoop rest seen
    else if seen.contains t then tokenFilterLoop rest seen
    else t :: tokenFilterLoop rest (t :: seen)

/-- Embedding of `_query_tokens` (search_service.py, lines 1012-1029).  The
substitution `re.sub(r"[^\w\s]+", " ", q)` is modelled character-wise; the
runs it would collapse are merged by the following whitespace collapse
anyway. -/
def query_tokens (query : List Char) : List (List Char) :=
  let q := ((pyStrip query).map pyLower).map (fun c => if c = 'ё' then 'е' else c)
  let q := q.map (fun c => if ¬ (pyIsWord c ∨ isPySpace c) then ' ' else c)
  let q := pyStrip (collapseWs q)
  let raw := ((String.mk q).splitOn " ").map String.data |>.filter (fun t => ¬ t.isEmpty)
  (tokenFilterLoop raw []).take 10

/-- Title normalization inside `_matches_query`:
`(title or "").strip().lower().replace("ё", "е")`. -/
def mqClean (title : List Char) : List Char :=
  ((pyStrip title).map pyLower).map (fun c => if c = 'ё' then 'е' else c)

/-- The `required` threshold of `_matches_query`.  The source computes
`max(2, int(len(tokens) * 0.6))` for three or more tokens; `0.6` denotes the
IEEE-754 double 5404319552844595 / 2^53, and for every token count n ≤ 10
(the cap enforced by `_query_tokens`) truncating the rounded double product
`n * 0.6` equals the exact `3 * n / 5` used here (checked case by case for
n = 0..10). -/
def requiredOf (n : Nat) : Nat :=
  if n = 1 then 1 else if n = 2 then 2 else max 2 (3 * n / 5)

/-- Embedding of `_matches_query` (search_service.py, lines 1032-1051); the
accumulating `hits` loop is rendered as `countP` over the tokens. -/
def matches_query (title : List Char) (tokens : List (List Char)) : Bool :=
  if tokens.isEmpty then true
  else
    let t := mqClean title
    if t.isEmpty then false
    else
      let hits := tokens.countP
        (fun tok => (tok :: TOKEN_SYNONYMS tok).any (fun v => ¬ v.isEmpty ∧ occursIn v t))
      decide (requiredOf tokens.length ≤ hits)

/-- Hit count as phrased by the specification claim: the number of query
tokens that occur — themselves or through a synonym variant — as substrings
of the cleaned title. -/
def specHitCount (title : List Char) (tokens : List (List Char)) : Nat :=
  tokens.countP
    (fun tok => (tok :: TOKEN_SYNONYMS tok).any (fun v => occursIn v (mqClean title)))

/-- The `required` threshold exactly as the specification claim words it:
1 for one token, 2 for two, `max(2, ceil(0.6 * N))` otherwise (with the exact
rational 0.6, so `ceil(0.6 * N) = (3 * N + 4) / 5` in natural division). -/
def specRequiredCeil (n : Nat) : Nat :=
  if n = 1 then 1 else if n = 2 then 2 else max 2 ((3 * n + 4) / 5)

/-! ### Cache entry, result application, Yandex filler, pagination view -/

/-- Constant `CACHE_TTL_SECONDS = 10 * 60`. -/
def CACHE_TTL_SECONDS : ℚ := 10 * 60

/-- Constant `MAX_CACHE_ITEMS = 200`. -/
def MAX_CACHE_ITEMS : Nat := 200

/-- Constant `YANDEX_MAX_PAGES = 10`. -/
def YANDEX_MAX_PAGES : Nat := 10

/-- Constant `SLOW_SOURCES_TIMEOUT_SECONDS = 8.0`. -/
def SLOW_SOURCES_TIMEOUT_SECONDS : ℚ := 8

/-- Constant `SLOW_SOURCES_TIMEOUT_SECONDS_PER_SOURCE = 60.0`. -/
def SLOW_SOURCES_TIMEOUT_SECONDS_PER_SOURCE : ℚ := 60

/-- The `SearchItem` dataclass (search_providers/base.py). -/
structure SearchItem where
  id : String
  title : String
  price : Int
  thumbnail_url : String
  product_url : String
  merchant_name : String
  merchant_logo_url : String
  source : String
deriving DecidableEq, Repr

/-- Embedding of `_item_key`: the dedup key `f"{item.source}|{item.id}"`. -/
def item_key (item : SearchItem) : String :=
  item.source ++ "|" ++ item.id

/-- The `SearchCacheEntry` dataclass (search_service.py, lines 2167-2178).
The entry's asyncio lock is not modelled: the embedding describes the
mutations performed while it is held.  Monotonic times are rationals. -/
structure SearchCacheEntry where
  key : String := ""
  expires_at : ℚ := 0
  items : List SearchItem := []
  seen : Finset String := ∅
  source_limits : List (String × Nat) := []
  pending_sources : List String := []
  yandex_next_page : Nat := 1
  yandex_rs : List Char := []
  yandex_exhausted : Bool := false

/-- Embedding of `SearchCacheEntry.reset` (search_service.py, lines
2180-2188). -/
def SearchCacheEntry.reset (e : SearchCacheEntry) (now : ℚ) : SearchCacheEntry :=
  { e with
    expires_at := now + CACHE_TTL_SECONDS
    items := []
    seen := ∅
    source_limits := []
    pending_sources := []
    yandex_next_page := 1
    yandex_rs := []
    yandex_exhausted := false }

/-- Python dict assignment `m[k] = v` for the `source_limits` map. -/
def setLimit : List (String × Nat) → String → Nat → List (String × Nat)
  | [], k, v => [(k, v)]
  | (k0, v0) :: rest, k, v =>
    if k0 = k then (k, v) :: rest else (k0, v0) :: setLimit rest k v

/-- The `_DISPLAY_MERCHANT_NAMES` table. -/
def DISPLAY_MERCHANT_NAMES : List (String × String) :=
  [("market.yandex.ru", "Яндекс Маркет"), ("aliexpress.ru", "AliExpress"),
   ("wildberries.ru", "Wildberries"), ("cdek.shopping", "CDEK Shopping"),
   ("citilink.ru", "Ситилинк"), ("xcom-shop.ru", "XCOM-SHOP"),
   ("mvideo.ru", "М.Видео"), ("eldorado.ru", "Эльдорадо"),
   ("dns-shop.ru", "DNS"), ("avito.ru", "Avito"),
   ("onlinetrade.ru", "Onlinetrade"), ("ozon.ru", "Ozon")]

/-- Embedding of `_display_merchant_name`. -/
def display_merchant_name (source : String) : String :=
  match DISPLAY_MERCHANT_NAMES.lookup source with
  | some n => n
  | none => source

/-- Per-item normalization of `_apply_provider_result` (lines 2376-2383):
AliExpress titles take the stricter cleanup, prices are re-normalized, and a
missing or source-equal merchant name is replaced by the display name. -/
def applyNormalizeItem (item : SearchItem) : SearchItem :=
  let title :=
    if item.source = "aliexpress.ru" then String.mk (clean_ali_title item.title.data)
    else String.mk (clean_title item.title.data)
  let price := normalize_price (PyVal.pyint item.price)
  let merchant :=
    if item.merchant_name = "" ∨ item.merchant_name = item.source then
      display_merchant_name item.source
    else item.merchant_name
  { item with title := title, price := price, merchant_name := merchant }

/-- Per-item normalization of the Yandex fill loop (lines 2568-2571), which
always uses the plain `_clean_title`. -/
def yandexNormalizeItem (item : SearchItem) : SearchItem :=
  let price := normalize_price (PyVal.pyint item.price)
  let merchant :=
    if item.merchant_name = "" ∨ item.merchant_name = item.source then
      display_merchant_name item.source
    else item.merchant_name
  let title := String.mk (clean_title item.title.data)
  { item with title := title, price := price, merchant_name := merchant }

/-- One iteration of the item loop of `_apply_provider_result` (lines
2375-2392): normalize, filter by token match, then dedup via `seen` and
append. -/
def apply_item (tokens : List (List Char)) (e : SearchCacheEntry)
    (item0 : SearchItem) : SearchCacheEntry :=
  let item := applyNormalizeItem item0
  if ¬ tokens.isEmpty ∧ ¬ matches_query item.title.data tokens then e
  else
    let k := item_key item
    if k ∈ e.seen then e
    else { e with seen := insert k e.seen, items := e.items ++ [item] }

/-- The transient outcome of one provider fetch: `None`, an exception, or a
list of items. -/
inductive ProviderRes where
  | noResult
  | failure
  | results (l : List SearchItem)

/-- Embedding of `_apply_provider_result` (search_service.py, lines
2358-2392). -/
def apply_provider_result (tokens : List (List Char))
    (explicit_sources track_limits : Bool) (source : String)
    (requested_limit prev_limit : Nat) (e : SearchCacheEntry)
    (res : ProviderRes) : SearchCacheEntry :=
  match res with
  | .noResult => e
  | .failure =>
    if track_limits then
      { e with source_limits := setLimit e.source_limits source requested_limit }
    else e
  | .results l =>
    let e :=
      if ¬ l.isEmpty ∨ ¬ explicit_sources then
        { e with source_limits := setLimit e.source_limits source (max prev_limit requested_limit) }
      else e
    l.foldl (apply_item tokens) e

/-- One fetch outcome of the Yandex page loop: an empty body, or a body whose
final URL yielded the given `rs` continuation and whose HTML parsed to the
given items. -/
inductive YandexFetch where
  | failed
  | fetched (rs : Option (List Char)) (parsed : List SearchItem)

/-- The count `sum(1 for item in entry.items if item.source ==
"market.yandex.ru")`. -/
def yandex_count (e : SearchCacheEntry) : Nat :=
  e.items.countP (fun it => it.source = "market.yandex.ru")

/-- The token filter of `_fill_yandex` (lines 2538-2547): with exactly two
tokens an item may match either token alone, otherwise the default match is
used; with no tokens or no parsed items the page passes through. -/
def yandexPageFilter (tokens : List (List Char)) (parsed : List SearchItem) :
    List SearchItem :=
  if ¬ tokens.isEmpty ∧ ¬ parsed.isEmpty then
    match tokens with
    | [t1, t2] =>
      parsed.filter (fun it =>
        matches_query it.title.data [t1] ∨ matches_query it.title.data [t2])
    | _ => parsed.filter (fun it => matches_query it.title.data tokens)
  else parsed

/-- The inner item loop of `_fill_yandex` (lines 2565-2582), with its two
break conditions; returns the updated entry and the `added` counter. -/
def yandex_apply_loop (yandexTarget : Nat) :
    SearchCacheEntry → Nat → Nat → List SearchItem → SearchCacheEntry × Nat
  | e, _, added, [] => (e, added)
  | e, current, added, item0 :: rest =>
    let item := yandexNormalizeItem item0
    let k := item_key item
    if k ∈ e.seen then yandex_apply_loop yandexTarget e current added rest
    else
      let e2 := { e with seen := insert k e.seen, items := e.items ++ [item] }
      if yandexTarget ≤ current + 1 then (e2, added + 1)
      else if MAX_CACHE_ITEMS ≤ e2.items.length then (e2, added + 1)
      else yandex_apply_loop yandexTarget e2 (current + 1) (added + 1) rest

/-- Embedding of the `while` loop of `_fill_yandex` (search_service.py, lines
2497-2587).  The network is modelled by the `trace` of successive fetch
outcomes; an exhausted trace behaves like a failed fetch (the loop breaks
without marking the entry exhausted). -/
def fill_yandex (tokens : List (List Char)) (yandexTarget : Nat) :
    List YandexFetch → SearchCacheEntry → SearchCacheEntry
  | trace, e =>
    if yandex_count e < yandexTarget ∧ e.items.length < MAX_CACHE_ITEMS then
      if YANDEX_MAX_PAGES < e.yandex_next_page then { e with yandex_exhausted := true }
      else
        match trace with
        | [] => e
        | .failed :: _ => e
        | .fetched rsOpt parsed :: rest =>
          let e :=
            match rsOpt with
            | some rs => if rs.isEmpty then e else { e with yandex_rs := rs }
            | none => e
          let page_items := yandexPageFilter tokens parsed
          let e := { e with yandex_next_page := e.yandex_next_page + 1 }
          if page_items.isEmpty then { e with yandex_exhausted := true }
          else
            let res := yandex_apply_loop yandexTarget e (yandex_count e) 0 page_items
            if res.2 = 0 then { res.1 with yandex_exhausted := true }
            else fill_yandex tokens yandexTarget rest res.1
    else e

/-- The global-merge branch of `search_products` (search_service.py, lines
2300-2312): the page slice and the three sequential `has_more` updates. -/
def globalMergeView (items : List SearchItem) (sources_n : List String)
    (offset limit : Nat) (partialFlag : Bool) (pending_sources : List String)
    (yandex_exhausted : Bool) (yandex_next_page : Nat) :
    List SearchItem × Bool :=
  let page_items := (items.drop offset).take limit
  let has_more := false
  let has_more :=
    if "market.yandex.ru" ∈ sources_n ∧ ¬ yandex_exhausted ∧
        yandex_next_page ≤ YANDEX_MAX_PAGES then true
    else has_more
  let has_more :=
    if offset + page_items.length < items.length then true else has_more
  let has_more :=
    if partialFlag ∧ ¬ pending_sources.isEmpty then true else has_more
  (page_items, has_more)

/-- The `has_more` disjunction exactly as the specification claim words it
for global-merge mode, with its condition (2) `offset + len(page) > total`. -/
def specGlobalHasMore (items : List SearchItem) (sources_n : List String)
    (offset limit : Nat) (partialFlag : Bool) (pending_sources : List String)
    (yandex_exhausted : Bool) (yandex_next_page : Nat) : Prop :=
  ("market.yandex.ru" ∈ sources_n ∧ ¬ yandex_exhausted ∧
    yandex_next_page ≤ YANDEX_MAX_PAGES) ∨
  offset + ((items.drop offset).take limit).length > items.length ∨
  (partialFlag ∧ pending_sources ≠ [])

/-- The `slow_timeout` selection of `search_products` (lines 2244-2253). -/
def slow_timeout_choice (partialFlag per_source : Bool) (n_sources : Nat)
    (search_timeout_seconds : ℚ) : ℚ :=
  let st :=
    if partialFlag then SLOW_SOURCES_TIMEOUT_SECONDS
    else if per_source then SLOW_SOURCES_TIMEOUT_SECONDS_PER_SOURCE
    else SLOW_SOURCES_TIMEOUT_SECONDS
  if n_sources = 1 then max search_timeout_seconds st else st

/-- The default eight-source list of `_normalize_sources`. -/
def DEFAULT_SOURCES : List String :=
  ["market.yandex.ru", "mvideo.ru", "citilink.ru", "eldorado.ru", "avito.ru",
   "cdek.shopping", "aliexpress.ru", "xcom-shop.ru"]

/-- Per-source-name cleanup `(s or "").strip().lower()`. -/
def normalizeSourceName (s : String) : String :=
  String.mk ((pyStrip s.data).map pyLower)

/-- Order-preserving de-duplication of the cleaned source names. -/
def dedupKeepOrder : List String → List String → List String
  | [], _ => []
  | s :: rest, seen =>
    if seen.contains s then dedupKeepOrder rest seen
    else s :: dedupKeepOrder rest (s :: seen)

/-- Embedding of `_normalize_sources` (search_service.py, lines 2046-2080):
`None` and the empty list (both falsy) yield the default list, as does a list
whose cleanup leaves nothing. -/
def normalize_sources (sources : Option (List String)) : List String :=
  match sources with
  | none => DEFAULT_SOURCES
  | some l =>
    if l.isEmpty then DEFAULT_SOURCES
    else
      let cleaned := (l.map normalizeSourceName).filter (fun s => ¬ s.isEmpty)
      let out := dedupKeepOrder cleaned []
      if out.isEmpty then DEFAULT_SOURCES else out

/-- The `explicit_sources` flag after the adjustment at the top of
`search_products` (lines 2225-2228): initially `sources is not None`, then
forced to true when the request is implicit and the normalized list has more
than one element. -/
def explicit_sources_final (sources : Option (List String)) : Bool :=
  let e := sources.isSome
  if ¬ e ∧ 1 < (normalize_sources sources).length then true else e

/-- The early-return guard at the top of `_ensure_cached` (line 2326):
`len(entry.items) >= target and not explicit_sources`. -/
def ensure_cached_skips (items_len target : Nat) (explicit : Bool) : Bool :=
  target ≤ items_len ∧ ¬ explicit

/-! ### Theorems for the specification claims -/

/-- Claim C1, counterexample: `_normalize_price` does not map the positive
integers 1..9 to 0 — `_normalize_price(5) = 5`, a value outside
`{0} ∪ [10, 1_000_000]` (the gate tests `v <= 0`, not `v < 10`). -/
theorem C1_counterexample :
    normalize_price (PyVal.pyint 5) = 5 ∧
    ¬ (normalize_price (PyVal.pyint 5) = 0 ∨
        (10 ≤ normalize_price (PyVal.pyint 5) ∧
         normalize_price (PyVal.pyint 5) ≤ 1000000)) := by
  decide

/-- Claim C1, amended: for every input, `_normalize_price` returns a value in
`{0} ∪ [1, 1_000_000]` — any value outside `[1, 1_000_000]` is mapped to 0 —
and `_normalize_price` is idempotent. -/
theorem C1_normalize_price_amended (x : PyVal) :
    (normalize_price x = 0 ∨
      (1 ≤ normalize_price x ∧ normalize_price x ≤ 1000000)) ∧
    normalize_price (PyVal.pyint (normalize_price x)) = normalize_price x := by
  have gate : ∀ v : Int,
      ((if v ≤ 0 ∨ 1000000 < v then (0 : Int) else v) = 0 ∨
        (1 ≤ (if v ≤ 0 ∨ 1000000 < v then (0 : Int) else v) ∧
         (if v ≤ 0 ∨ 1000000 < v then (0 : Int) else v) ≤ 1000000)) ∧
      normalize_price (PyVal.pyint (if v ≤ 0 ∨ 1000000 < v then (0 : Int) else v)) =
        (if v ≤ 0 ∨ 1000000 < v then (0 : Int) else v) := by
    intro v
    by_cases hv : v ≤ 0 ∨ 1000000 < v
    · simp [normalize_price, hv]
    · push_neg at hv
      rw [if_neg (by omega)]
      refine ⟨Or.inr ⟨by omega, by omega⟩, ?_⟩
      simp only [normalize_price]
      rw [if_neg (by omega)]
  cases x with
  | pynone => exact ⟨Or.inl rfl, by simp [normalize_price]⟩
  | pybool b => exact ⟨Or.inl rfl, by simp [normalize_price]⟩
  | pyint n => simpa only [normalize_price] using gate n
  | pyfloat q => simpa only [normalize_price] using gate (pyTrunc q)
  | pystr s => simpa only [normalize_price] using gate ((first_price s : Int))

/-- Claim C10: a text with no currency marker at all (no `₽` and no letter
`р`, hence no `руб`/`р.`) on which `_first_price` still returns a nonzero
value through its final standalone-integer fallback:
`_first_price("iPhone 15") = 15`. -/
theorem C10_first_price_fallback :
    ("iPhone 15".data.all (fun c => ¬ (c = '₽' ∨ pyLower c = 'р'))) = true ∧
    first_price "iPhone 15".data = 15 := by
  exact ⟨by decide, by decide⟩

/-- Claim C8: evaluation of the code at the failing input.  The text
`"1 000 ₽/мес"` describes a per-month installment, which the specification
says must be rejected, yet `_prices_from_text` returns `[1000]`: the
doubled backslashes of the raw-string pattern `_PRICE_CONTEXT_SKIP` make its
`/мес`, `в месяц` and `\bмес\b` alternatives require a literal backslash, so
the context check never fires on this text. -/
theorem C8_prices_from_text_failing_input :
    prices_from_text "1 000 ₽/мес".data = [1000] ∧
    containsSkip "1 000 ₽/мес".data = false ∧
    containsSkip "1 000 ₽ кредит".data = true := by
  exact ⟨by decide, by decide, by decide⟩

/-- Claim C7: the fan-out deadline of `search_products` is 8 s when
`partial=true`, 60 s when `partial=false ∧ per_source=true`, 8 s when
`partial=false ∧ per_source=false`, and a single-source request raises it to
`max(search_timeout_seconds, slow_timeout)`. -/
theorem C7_slow_timeout_choice (q : ℚ) (n : Nat) :
    (∀ ps : Bool, slow_timeout_choice true ps n q =
      if n = 1 then max q 8 else 8) ∧
    (slow_timeout_choice false true n q = if n = 1 then max q 60 else 60) ∧
    (slow_timeout_choice false false n q = if n = 1 then max q 8 else 8) := by
  refine ⟨fun ps => rfl, rfl, rfl⟩

/-- Claim C9: whenever the normalized source list has more than one element
(including the default eight-source list used when `sources` is omitted),
the adjusted `explicit_sources` flag is true, so the early return of
`_ensure_cached` that skips all fetching can never fire for such calls. -/
theorem C9_explicit_sources_forced (sources : Option (List String))
    (h : 1 < (normalize_sources sources).length) :
    explicit_sources_final sources = true ∧
    ∀ items_len target : Nat,
      ensure_cached_skips items_len target (explicit_sources_final sources) = false := by
  have he : explicit_sources_final sources = true := by
    cases sources with
    | none => simp [explicit_sources_final, h]
    | some l => simp [explicit_sources_final]
  refine ⟨he, fun items_len target => ?_⟩
  rw [he]
  simp [ensure_cached_skips]

/-- Witness for C9 at a concrete input: the implicit request (`sources`
omitted) normalizes to the default eight-source list and never short-circuits
in `_ensure_cached`. -/
theorem C9_witness :
    explicit_sources_final none = true ∧
    ensure_cached_skips 200 5 (explicit_sources_final none) = false :=
  ⟨(C9_explicit_sources_forced none (by decide)).1,
   (C9_explicit_sources_forced none (by decide)).2 200 5⟩

/-- A concrete item used in witnesses and counterexamples. -/
def sampleItem : SearchItem :=
  { id := "a1", title := "x", price := 100, thumbnail_url := "",
    product_url := "", merchant_name := "m", merchant_logo_url := "",
    source := "avito.ru" }

/-- Claim C3, counterexample: with one cached item, `offset=5`, `limit=10`,
no Yandex among the sources, `partial=false`, the code returns
`has_more=false`, while the claim's condition (2)
`offset + len(page) > total` (5 + 0 > 1) would make `has_more` true. -/
theorem C3_counterexample :
    (globalMergeView [sampleItem] ["avito.ru"] 5 10 false [] false 1).2 = false ∧
    specGlobalHasMore [sampleItem] ["avito.ru"] 5 10 false [] false 1 := by
  constructor
  · decide
  · right; left; decide

/-- Claim C3, amended: in global-merge mode the page is
`items[offset:offset+limit]` and `has_more` holds iff Yandex is requested,
unexhausted and within its page budget, or
`offset + len(page) < total` (the code tests `<`, not the claim's `>`), or
`partial` with a non-empty pending set. -/
theorem C3_global_merge_amended (items : List SearchItem)
    (sources_n : List String) (offset limit : Nat) (partialFlag : Bool)
    (pending : List String) (yex : Bool) (ynp : Nat) :
    (globalMergeView items sources_n offset limit partialFlag pending yex ynp).1 =
      (items.drop offset).take limit ∧
    ((globalMergeView items sources_n offset limit partialFlag pending yex ynp).2 = true ↔
      (("market.yandex.ru" ∈ sources_n ∧ ¬ yex = true ∧ ynp ≤ YANDEX_MAX_PAGES) ∨
       offset + ((items.drop offset).take limit).length < items.length ∨
       (partialFlag = true ∧ pending ≠ []))) := by
  refine ⟨rfl, ?_⟩
  simp only [globalMergeView]
  split_ifs with h1 h2 h3 <;>
    simp_all [List.isEmpty_iff, Bool.not_eq_true]

/-- Claim C2, counterexample: with four tokens of which exactly two occur in
the title, `_matches_query` accepts (its threshold is
`max(2, int(4 * 0.6)) = 2`), while the claim's `max(2, ceil(0.6·4)) = 3`
would reject. -/
theorem C2_counterexample :
    matches_query "aa bb".data ["aa".data, "bb".data, "cc".data, "dd".data] = true ∧
    specHitCount "aa bb".data ["aa".data, "bb".data, "cc".data, "dd".data] = 2 ∧
    specRequiredCeil 4 = 3 ∧ requiredOf 4 = 2 := by
  exact ⟨by decide, by decide, by decide, by decide⟩

/-- Values found by `synLookup` belong to a table entry. -/
lemma synLookup_nonempty (tbl : List (List Char × List (List Char)))
    (htbl : tbl.all (fun e => e.2.all (fun v => ¬ v.isEmpty)) = true)
    (tok v : List Char) (hv : v ∈ synLookup tbl tok) : v ≠ [] := by
  induction tbl with
  | nil => simp [synLookup] at hv
  | cons e rest ih =>
    rw [List.all_cons, Bool.and_eq_true] at htbl
    obtain ⟨he, hrest⟩ := htbl
    obtain ⟨k, vs⟩ := e
    unfold synLookup at hv
    split at hv
    · rw [List.all_eq_true] at he
      have := he v hv
      simp only [decide_eq_true_eq] at this
      intro hnil
      exact this (by simp [hnil])
    · exact ih hrest hv

/-- Every synonym list in `_TOKEN_SYNONYMS` consists of non-empty words. -/
lemma token_synonyms_nonempty (tok v : List Char)
    (hv : v ∈ TOKEN_SYNONYMS tok) : v ≠ [] :=
  synLookup_nonempty TOKEN_SYNONYMS_TABLE (by decide) tok v hv

/-- A non-empty pattern never occurs in the empty subject. -/
lemma occursIn_nil (v : List Char) (hv : v ≠ []) : occursIn v [] = false := by
  cases v with
  | nil => exact absurd rfl hv
  | cons a as => rfl

/-- The `_matches_query` threshold is always at least one. -/
lemma requiredOf_pos (n : Nat) : 1 ≤ requiredOf n := by
  unfold requiredOf
  split_ifs <;> omega

/-- In the context of claim C2 (tokens of length at least two), every variant
of a token is non-empty. -/
lemma variant_ne_nil (tokens : List (List Char))
    (htok : ∀ tok ∈ tokens, 2 ≤ tok.length) (tok : List Char)
    (htk : tok ∈ tokens) (v : List Char)
    (hv : v ∈ tok :: TOKEN_SYNONYMS tok) : v ≠ [] := by
  rcases List.mem_cons.mp hv with rfl | hv'
  · have := htok v htk
    intro hnil
    subst hnil
    simp at this
  · exact token_synonyms_nonempty tok v hv'

/-- Claim C2, amended: for every title and every list of at most ten tokens
of length at least two (the shape produced by `_query_tokens`),
`_matches_query` accepts iff the number of tokens occurring in the cleaned
title (counting synonym variants) is at least
`required = max(2, int(0.6·N))` — the source truncates `0.6·N`, it does not
take its ceiling as the claim states. -/
theorem C2_matches_query_amended (title : List Char) (tokens : List (List Char))
    (hne : tokens ≠ []) (hlen : tokens.length ≤ 10)
    (htok : ∀ tok ∈ tokens, 2 ≤ tok.length) :
    (matches_query title tokens = true ↔
      requiredOf tokens.length ≤ specHitCount title tokens) := by
  have h0 : tokens.isEmpty = false := by
    cases tokens with
    | nil => exact absurd rfl hne
    | cons a as => rfl
  unfold matches_query specHitCount
  rw [h0]
  simp only [Bool.false_eq_true, if_false]
  by_cases ht : (mqClean title) = []
  · have hcz : (mqClean title).isEmpty = true := by simp [ht]
    rw [hcz]
    simp only [if_true]
    have hcount : tokens.countP
        (fun tok => (tok :: TOKEN_SYNONYMS tok).any
          (fun v => occursIn v (mqClean title))) = 0 := by
      rw [List.countP_eq_zero]
      intro tok htk
      simp only [List.any_eq_true, not_exists]
      intro v
      rintro ⟨hv, hocc⟩
      rw [ht, occursIn_nil v (variant_ne_nil tokens htok tok htk v hv)] at hocc
      exact absurd hocc (by simp)
    rw [hcount]
    have := requiredOf_pos tokens.length
    constructor
    · intro hfalse
      exact absurd hfalse (by simp)
    · intro hle
      omega
  · have hcz : (mqClean title).isEmpty = false := by
      cases hmq : mqClean title with
      | nil => exact absurd hmq ht
      | cons a as => rfl
    rw [hcz]
    simp only [Bool.false_eq_true, if_false, decide_eq_true_eq]
    have hcong : tokens.countP
        (fun tok => (tok :: TOKEN_SYNONYMS tok).any
          (fun v => ¬ v.isEmpty ∧ occursIn v (mqClean title))) =
        tokens.countP
        (fun tok => (tok :: TOKEN_SYNONYMS tok).any
          (fun v => occursIn v (mqClean title))) := by
      apply List.countP_congr
      intro tok htk
      simp only [List.any_eq_true, decide_eq_true_eq]
      constructor
      · rintro ⟨v, hv, _, hocc⟩
        exact ⟨v, hv, hocc⟩
      · rintro ⟨v, hv, hocc⟩
        refine ⟨v, hv, ?_, hocc⟩
        have hvne := variant_ne_nil tokens htok tok htk v hv
        simp [List.isEmpty_iff, hvne]
    rw [hcong]

/-- Witness for C2 at a concrete input: two tokens, both present. -/
theorem C2_witness :
    matches_query "apple iphone 15".data ["iphone".data, "15".data] = true ↔
      requiredOf 2 ≤ specHitCount "apple iphone 15".data ["iphone".data, "15".data] :=
  C2_matches_query_amended "apple iphone 15".data ["iphone".data, "15".data]
    (by decide) (by decide) (by decide)

/-- Claim C4, counterexample: `_clean_title` strips only one leading
merchant-category word per application, so it is not idempotent:
cleaning `"телефон телефон айфон"` yields `"телефон айфон"`, and cleaning
again yields `"айфон"`. -/
theorem C4_counterexample :
    clean_title "телефон телефон айфон".data = "телефон айфон".data ∧
    clean_title (clean_title "телефон телефон айфон".data) = "айфон".data ∧
    "телефон айфон".data ≠ "айфон".data := by
  exact ⟨by decide, by decide, by decide⟩

/-- A cleaned title is a fixpoint of each individual normalization stage of
`_clean_title`: no residual HTML entity, no U+00A0 or zero-width character,
no strippable or collapsible whitespace, no leading merchant-category word,
no unparenthesised `б/у`, no comma before a memory spec, no lower-case or
multi-space ` гб`, no dangling `(б/у`, and length at most 160.  Every
conjunct is decidable. -/
def fullyCleanTitle (c : List Char) : Prop :=
  unescapeHtml c = c ∧
  c.map (fun x => if x = nbsp then ' ' else x) = c ∧
  c.filter (fun x => ¬ isZeroWidth x) = c ∧
  collapseWs (stripChars cleanStripSet c) = c ∧
  dropCategoryWord c = c ∧
  buSubF (c.length + 1) none c = c ∧
  commaGbSubF (c.length + 1) c = c ∧
  gbSubF (c.length + 1) c = c ∧
  buParenFix c = c ∧
  c.length ≤ 160

/-- The length cap is the identity on titles of length at most 160. -/
lemma truncate160_of_le (l : List Char) (h : l.length ≤ 160) :
    truncate160 l = l := by
  unfold truncate160
  rw [if_neg (by omega)]

/-- Claim C4, amended: `_clean_title` is not idempotent in general (a second
application can strip a further merchant-category word, re-trim separators
exposed by truncation, or re-decode entities), but it is idempotent on every
input whose cleaned form is fully normalized in the sense of
`fullyCleanTitle`. -/
theorem C4_clean_title_amended (t : List Char)
    (h : fullyCleanTitle (clean_title t)) :
    clean_title (clean_title t) = clean_title t := by
  obtain ⟨h1, h2, h3, h4, h5, h6, h7, h8, h9, h10⟩ := h
  generalize hc : clean_title t = c at h1 h2 h3 h4 h5 h6 h7 h8 h9 h10 ⊢
  simp only [clean_title, clean_title_pre]
  rw [h1, h2, h3, h4, h5, h6, h7, h8, h9]
  exact truncate160_of_le _ h10

/-- Witness for C4 at a concrete input: a realistic already-clean title. -/
theorem C4_witness :
    fullyCleanTitle (clean_title "Смартфон Apple iPhone 15 128 ГБ".data) ∧
    clean_title (clean_title "Смартфон Apple iPhone 15 128 ГБ".data) =
      clean_title "Смартфон Apple iPhone 15 128 ГБ".data :=
  ⟨by unfold fullyCleanTitle; decide,
   C4_clean_title_amended "Смартфон Apple iPhone 15 128 ГБ".data
     (by unfold fullyCleanTitle; decide)⟩

/-- The dedup invariant of claim C6: the `seen` key set and the item list
have the same size. -/
def seenInv (e : SearchCacheEntry) : Prop :=
  e.seen.card = e.items.length

/-- One item application preserves the dedup invariant: an item is appended
exactly when its key is inserted. -/
lemma apply_item_inv (tokens : List (List Char)) (e : SearchCacheEntry)
    (item : SearchItem) (h : seenInv e) : seenInv (apply_item tokens e item) := by
  simp only [apply_item]
  split_ifs with h1 h2
  · exact h
  · exact h
  · unfold seenInv at *
    simp only [List.length_append, List.length_cons, List.length_nil]
    rw [Finset.card_insert_of_not_mem h2]
    omega

/-- The item loop of `_apply_provider_result` preserves the invariant. -/
lemma foldl_apply_item_inv (tokens : List (List Char)) (l : List SearchItem) :
    ∀ e, seenInv e → seenInv (l.foldl (apply_item tokens) e) := by
  induction l with
  | nil => intro e h; exact h
  | cons a as ih => intro e h; exact ih _ (apply_item_inv tokens e a h)

/-- `_apply_provider_result` preserves the invariant for every outcome. -/
lemma apply_provider_result_inv (tokens : List (List Char))
    (explicit track : Bool) (source : String) (rl pl : Nat)
    (e : SearchCacheEntry) (res : ProviderRes) (h : seenInv e) :
    seenInv (apply_provider_result tokens explicit track source rl pl e res) := by
  cases res with
  | noResult => exact h
  | failure =>
    simp only [apply_provider_result]
    split_ifs <;> exact h
  | results l =>
    simp only [apply_provider_result]
    split_ifs with h1 <;> exact foldl_apply_item_inv tokens l _ h

/-- The inner item loop of `_fill_yandex` preserves the invariant. -/
lemma yandex_apply_loop_inv (target : Nat) (items : List SearchItem) :
    ∀ e current added, seenInv e →
      seenInv (yandex_apply_loop target e current added items).1 := by
  induction items with
  | nil => intro e current added h; exact h
  | cons a rest ih =>
    intro e current added h
    simp only [yandex_apply_loop]
    have hstep : ∀ k : String, k ∉ e.seen →
        seenInv { e with seen := insert k e.seen,
                         items := e.items ++ [yandexNormalizeItem a] } := by
      intro k hk
      unfold seenInv at *
      simp only [List.length_append, List.length_cons, List.length_nil]
      rw [Finset.card_insert_of_not_mem hk]
      omega
    split_ifs with h1 h2 h3
    · exact ih e current added h
    · exact hstep _ h1
    · exact hstep _ h1
    · exact ih _ _ _ (hstep _ h1)

/-- The page loop of `_fill_yandex` preserves the invariant. -/
lemma fill_yandex_inv (tokens : List (List Char)) (target : Nat) :
    ∀ (trace : List YandexFetch) (e : SearchCacheEntry),
      seenInv e → seenInv (fill_yandex tokens target trace e) := by
  intro trace
  induction trace with
  | nil =>
    intro e h
    unfold fill_yandex
    split_ifs <;> exact h
  | cons head rest ih =>
    intro e h
    unfold fill_yandex
    split_ifs with h1 h2
    · exact h
    · cases head with
      | failed => exact h
      | fetched rsOpt parsed =>
        cases rsOpt <;>
          (dsimp only; split_ifs <;>
            first
              | exact h
              | exact yandex_apply_loop_inv target _ _ _ _ h
              | exact ih _ (yandex_apply_loop_inv target _ _ _ _ h))
    · exact h

/-- Claim C6: the invariant `|seen| = |items|` is established by `reset` and
preserved by `_apply_provider_result` and by the `_fill_yandex` loop (over an
arbitrary trace of fetch outcomes). -/
theorem C6_seen_items_invariant :
    (∀ (e : SearchCacheEntry) (now : ℚ), seenInv (e.reset now)) ∧
    (∀ (tokens : List (List Char)) (explicit track : Bool) (source : String)
        (rl pl : Nat) (e : SearchCacheEntry) (res : ProviderRes),
        seenInv e →
        seenInv (apply_provider_result tokens explicit track source rl pl e res)) ∧
    (∀ (tokens : List (List Char)) (target : Nat) (trace : List YandexFetch)
        (e : SearchCacheEntry),
        seenInv e → seenInv (fill_yandex tokens target trace e)) := by
  refine ⟨?_, ?_, ?_⟩
  · intro e now
    unfold seenInv SearchCacheEntry.reset
    simp
  · intro tokens explicit track source rl pl e res h
    exact apply_provider_result_inv tokens explicit track source rl pl e res h
  · intro tokens target trace e h
    exact fill_yandex_inv tokens target trace e h

/-- Witness for C6 at concrete inputs: a fresh entry, a provider result with
a duplicated item, and a one-page Yandex trace. -/
theorem C6_witness :
    seenInv (SearchCacheEntry.reset {} 0) ∧
    seenInv (apply_provider_result [] true true "avito.ru" 5 0
      (SearchCacheEntry.reset {} 0) (ProviderRes.results [sampleItem, sampleItem])) ∧
    seenInv (fill_yandex [] 10 [YandexFetch.fetched none [sampleItem]]
      (SearchCacheEntry.reset {} 0)) :=
  ⟨C6_seen_items_invariant.1 {} 0,
   C6_seen_items_invariant.2.1 [] true true "avito.ru" 5 0 _ _
     (C6_seen_items_invariant.1 {} 0),
   C6_seen_items_invariant.2.2 [] 10 [YandexFetch.fetched none [sampleItem]] _
     (C6_seen_items_invariant.1 {} 0)⟩

/-- The characters claim C5 forbids in cleaned titles: U+00A0 and the
zero-width / bidi-control set. -/
def bannedChar (c : Char) : Bool :=
  c = nbsp ∨ isZeroWidth c

/-- After the first three stages of `_clean_title` (unescape, NBSP to space,
zero-width removal) no forbidden character remains. -/
lemma stage3_not_banned (raw : List Char) :
    ∀ x ∈ ((unescapeHtml raw).map (fun c => if c = nbsp then ' ' else c)).filter
      (fun c => ¬ isZeroWidth c), bannedChar x = false := by
  intro x hx
  rw [List.mem_filter] at hx
  obtain ⟨hx1, hzw⟩ := hx
  rw [List.mem_map] at hx1
  obtain ⟨a, _, ha⟩ := hx1
  have hnb : ¬ x = nbsp := by
    intro hxeq
    rw [hxeq] at ha
    by_cases hA : a = nbsp
    · rw [if_pos hA] at ha
      exact absurd ha (by decide)
    · rw [if_neg hA] at ha
      exact hA ha
  have hzw' : isZeroWidth x = false := by
    simpa using hzw
  simp only [bannedChar, decide_eq_false_iff_not, not_or]
  exact ⟨hnb, by simp [hzw']⟩

/-- `str.strip(chars)` only removes characters. -/
lemma stripChars_subset (bad l : List Char) : ∀ x ∈ stripChars bad l, x ∈ l := by
  intro x hx
  unfold stripChars at hx
  rw [List.mem_reverse] at hx
  have hx2 := (List.dropWhile_sublist _).subset hx
  rw [List.mem_reverse] at hx2
  exact (List.dropWhile_sublist _).subset hx2

/-- `str.strip()` only removes characters. -/
lemma pyStrip_subset (l : List Char) : ∀ x ∈ pyStrip l, x ∈ l := by
  intro x hx
  unfold pyStrip at hx
  rw [List.mem_reverse] at hx
  have hx2 := (List.dropWhile_sublist _).subset hx
  rw [List.mem_reverse] at hx2
  exact (List.dropWhile_sublist _).subset hx2

/-- Whitespace collapsing yields input characters or plain spaces. -/
lemma collapseWsF_mem : ∀ (fuel : Nat) (l : List Char) (x : Char),
    x ∈ collapseWsF fuel l → x ∈ l ∨ x = ' ' := by
  intro fuel
  induction fuel with
  | zero => intro l x hx; simp [collapseWsF] at hx
  | succ n ih =>
    intro l x hx
    cases l with
    | nil => simp [collapseWsF] at hx
    | cons c rest =>
      unfold collapseWsF at hx
      split_ifs at hx with hc
      · rcases List.mem_cons.mp hx with rfl | hx'
        · right; rfl
        · rcases ih _ x hx' with h | h
          · left; exact List.mem_cons_of_mem _ ((List.dropWhile_sublist _).subset h)
          · right; exact h
      · rcases List.mem_cons.mp hx with rfl | hx'
        · left; exact List.mem_cons_self _ _
        · rcases ih _ x hx' with h | h
          · left; exact List.mem_cons_of_mem _ h
          · right; exact h

/-- The leading-prefix removal only drops characters. -/
lemma dropCategoryWord_subset (t : List Char) : ∀ x ∈ dropCategoryWord t, x ∈ t := by
  intro x hx
  unfold dropCategoryWord at hx
  cases hf : categoryWords.find?
      (fun w => startsWithCi w t && spaceHead (t.drop w.length)) with
  | none => rw [hf] at hx; exact hx
  | some w =>
    rw [hf] at hx
    exact List.drop_subset _ _ ((List.dropWhile_sublist _).subset hx)

/-- `buCore` returns a suffix of its input. -/
lemma buCore_subset (l r : List Char) (h : buCore l = some r) : ∀ x ∈ r, x ∈ l := by
  cases l with
  | nil => simp [buCore] at h
  | cons b l1 =>
    cases l1 with
    | nil => simp [buCore] at h
    | cons s l2 =>
      cases l2 with
      | nil => simp [buCore] at h
      | cons u rest =>
        dsimp only [buCore] at h
        split_ifs at h with hc
        · injection h with h'
          subst h'
          intro x hx
          exact List.mem_cons_of_mem _ (List.mem_cons_of_mem _ (List.mem_cons_of_mem _ hx))

/-- The attempted `б/у` match of `buSubF` consumes characters of the input. -/
lemma buSubAttempt_subset (prev : Option Char) (c : Char) (rest r2 : List Char)
    (h : (if c = ',' then buCore (rest.dropWhile isPySpace)
          else if isPySpace c then buCore ((c :: rest).dropWhile isPySpace)
          else if prev = some '(' then none else buCore (c :: rest)) = some r2) :
    ∀ x ∈ r2, x ∈ c :: rest := by
  split_ifs at h with h1 h2 h3
  · exact fun x hx =>
      List.mem_cons_of_mem _ ((List.dropWhile_sublist _).subset (buCore_subset _ _ h x hx))
  · exact fun x hx => (List.dropWhile_sublist _).subset (buCore_subset _ _ h x hx)
  · exact buCore_subset _ _ h

/-- The `б/у` substitution yields input characters or characters of the
replacement ` (б/у)`. -/
lemma buSubF_mem : ∀ (fuel : Nat) (prev : Option Char) (l : List Char) (x : Char),
    x ∈ buSubF fuel prev l → x ∈ l ∨ x ∈ [' ', '(', 'б', '/', 'у', ')'] := by
  intro fuel
  induction fuel with
  | zero => intro prev l x hx; simp [buSubF] at hx
  | succ n ih =>
    intro prev l x hx
    cases l with
    | nil => simp [buSubF] at hx
    | cons c rest =>
      unfold buSubF at hx
      dsimp only at hx
      cases hres : (if c = ',' then buCore (rest.dropWhile isPySpace)
          else if isPySpace c then buCore ((c :: rest).dropWhile isPySpace)
          else if prev = some '(' then none else buCore (c :: rest)) with
      | none =>
        rw [hres] at hx
        dsimp only at hx
        rcases List.mem_cons.mp hx with rfl | hx'
        · left; exact List.mem_cons_self _ _
        · rcases ih _ _ x hx' with h | h
          · left; exact List.mem_cons_of_mem _ h
          · right; exact h
      | some r2 =>
        rw [hres] at hx
        dsimp only at hx
        simp only [List.mem_cons] at hx
        rcases hx with rfl | rfl | rfl | rfl | rfl | rfl | hx'
        · right; decide
        · right; decide
        · right; decide
        · right; decide
        · right; decide
        · right; decide
        · rcases ih _ _ x hx' with h | h
          · left; exact buSubAttempt_subset prev c rest r2 hres x h
          · right; exact h

/-- The captured group and the rest of `parseGbAfterComma` consist of input
characters. -/
lemma parseGb_subset (rest cap r : List Char)
    (h : parseGbAfterComma rest = some (cap, r)) :
    (∀ x ∈ cap, x ∈ rest) ∧ (∀ x ∈ r, x ∈ rest) := by
  have s1 : ∀ x ∈ rest.dropWhile isPySpace, x ∈ rest :=
    fun x hx => (List.dropWhile_sublist _).subset hx
  have s2 : ∀ x ∈ (rest.dropWhile isPySpace).dropWhile Char.isDigit, x ∈ rest :=
    fun x hx => s1 x ((List.dropWhile_sublist _).subset hx)
  unfold parseGbAfterComma at h
  dsimp only at h
  split at h
  · exact Option.noConfusion h
  split at h
  all_goals try exact Option.noConfusion h
  rename_i l4 heq4
  have s3 : ∀ x ∈ '/' :: l4, x ∈ rest := by
    rw [← heq4]
    exact fun x hx => s2 x ((List.dropWhile_sublist _).subset hx)
  have sl4 : ∀ x ∈ l4, x ∈ rest := fun x hx => s3 x (List.mem_cons_of_mem _ hx)
  have s5 : ∀ x ∈ l4.dropWhile isPySpace, x ∈ rest :=
    fun x hx => sl4 x ((List.dropWhile_sublist _).subset hx)
  have s6 : ∀ x ∈ (l4.dropWhile isPySpace).dropWhile Char.isDigit, x ∈ rest :=
    fun x hx => s5 x ((List.dropWhile_sublist _).subset hx)
  split at h
  · exact Option.noConfusion h
  split at h
  all_goals try exact Option.noConfusion h
  rename_i g b r' heqgb
  split at h
  case isFalse => exact Option.noConfusion h
  · rw [Option.some.injEq, Prod.mk.injEq] at h
    obtain ⟨hcap, hr⟩ := h
    subst hcap
    subst hr
    have s7 : ∀ x ∈ g :: b :: r', x ∈ rest := by
      rw [← heqgb]
      exact fun x hx => s6 x ((List.dropWhile_sublist _).subset hx)
    constructor
    · intro x hx
      simp only [List.mem_append, List.mem_cons, List.not_mem_nil, or_false,
        or_assoc] at hx
      rcases hx with hx | hx | rfl | hx | hx | hx | rfl | rfl
      · exact s1 x ((List.takeWhile_sublist _).subset hx)
      · exact s2 x ((List.takeWhile_sublist _).subset hx)
      · exact s3 '/' (List.mem_cons_self _ _)
      · exact sl4 x ((List.takeWhile_sublist _).subset hx)
      · exact s5 x ((List.takeWhile_sublist _).subset hx)
      · exact s6 x ((List.takeWhile_sublist _).subset hx)
      · exact s7 x (List.mem_cons_self _ _)
      · exact s7 x (List.mem_cons_of_mem _ (List.mem_cons_self _ _))
    · intro x hx
      exact s7 x (List.mem_cons_of_mem _ (List.mem_cons_of_mem _ hx))

/-- The comma-before-memory substitution yields input characters or plain
spaces. -/
lemma commaGbSubF_mem : ∀ (fuel : Nat) (l : List Char) (x : Char),
    x ∈ commaGbSubF fuel l → x ∈ l ∨ x = ' ' := by
  intro fuel
  induction fuel with
  | zero => intro l x hx; simp [commaGbSubF] at hx
  | succ n ih =>
    intro l x hx
    cases l with
    | nil => simp [commaGbSubF] at hx
    | cons c rest =>
      unfold commaGbSubF at hx
      split_ifs at hx with hc
      · cases hp : parseGbAfterComma rest with
        | none =>
          rw [hp] at hx
          dsimp only at hx
          rcases List.mem_cons.mp hx with rfl | hx'
          · left; exact List.mem_cons_self _ _
          · rcases ih _ x hx' with h | h
            · left; exact List.mem_cons_of_mem _ h
            · right; exact h
        | some capr =>
          obtain ⟨cap, r⟩ := capr
          rw [hp] at hx
          dsimp only at hx
          rcases List.mem_cons.mp hx with rfl | hx'
          · right; rfl
          · rw [List.mem_append] at hx'
            rcases hx' with hx' | hx'
            · left; exact List.mem_cons_of_mem _ ((parseGb_subset rest cap r hp).1 x hx')
            · rcases ih _ x hx' with h | h
              · left; exact List.mem_cons_of_mem _ ((parseGb_subset rest cap r hp).2 x h)
              · right; exact h
      · rcases List.mem_cons.mp hx with rfl | hx'
        · left; exact List.mem_cons_self _ _
        · rcases ih _ x hx' with h | h
          · left; exact List.mem_cons_of_mem _ h
          · right; exact h

/-- The ` ГБ` substitution yields input characters or characters of its
replacement. -/
lemma gbSubF_mem : ∀ (fuel : Nat) (l : List Char) (x : Char),
    x ∈ gbSubF fuel l → x ∈ l ∨ x ∈ [' ', 'Г', 'Б'] := by
  intro fuel
  induction fuel with
  | zero => intro l x hx; simp [gbSubF] at hx
  | succ n ih =>
    intro l x hx
    cases l with
    | nil => simp [gbSubF] at hx
    | cons c rest =>
      unfold gbSubF at hx
      split_ifs at hx with hsp
      · cases hm : (c :: rest).dropWhile isPySpace with
        | nil =>
          rw [hm] at hx
          dsimp only at hx
          rcases List.mem_cons.mp hx with rfl | hx'
          · left; exact List.mem_cons_self _ _
          · rcases ih _ x hx' with h | h
            · left; exact List.mem_cons_of_mem _ h
            · right; exact h
        | cons g tl =>
          cases tl with
          | nil =>
            rw [hm] at hx
            dsimp only at hx
            rcases List.mem_cons.mp hx with rfl | hx'
            · left; exact List.mem_cons_self _ _
            · rcases ih _ x hx' with h | h
              · left; exact List.mem_cons_of_mem _ h
              · right; exact h
          | cons b r =>
            rw [hm] at hx
            dsimp only at hx
            split_ifs at hx with hgb
            · simp only [List.mem_cons] at hx
              rcases hx with rfl | rfl | rfl | hx'
              · right; decide
              · right; decide
              · right; decide
              · rcases ih _ x hx' with h | h
                · left
                  have hsub : ∀ y ∈ g :: b :: r, y ∈ c :: rest := by
                    rw [← hm]
                    exact fun y hy => (List.dropWhile_sublist _).subset hy
                  exact hsub x (List.mem_cons_of_mem _ (List.mem_cons_of_mem _ h))
                · right; exact h
            · rcases List.mem_cons.mp hx with rfl | hx'
              · left; exact List.mem_cons_self _ _
              · rcases ih _ x hx' with h | h
                · left; exact List.mem_cons_of_mem _ h
                · right; exact h
      · rcases List.mem_cons.mp hx with rfl | hx'
        · left; exact List.mem_cons_self _ _
        · rcases ih _ x hx' with h | h
          · left; exact List.mem_cons_of_mem _ h
          · right; exact h

/-- `str.replace` yields input characters or replacement characters. -/
lemma replaceSeqAll_mem (pat repl : List Char) :
    ∀ (fuel : Nat) (l : List Char) (x : Char),
      x ∈ replaceSeqAll pat repl fuel l → x ∈ l ∨ x ∈ repl := by
  intro fuel
  induction fuel with
  | zero => intro l x hx; simp [replaceSeqAll] at hx
  | succ n ih =>
    intro l x hx
    cases l with
    | nil => simp [replaceSeqAll] at hx
    | cons c rest =>
      unfold replaceSeqAll at hx
      split_ifs at hx with hs
      · rw [List.mem_append] at hx
        rcases hx with hx | hx
        · right; exact hx
        · rcases ih _ x hx with h | h
          · left; exact List.drop_subset _ _ h
          · right; exact h
      · rcases List.mem_cons.mp hx with rfl | hx'
        · left; exact List.mem_cons_self _ _
        · rcases ih _ x hx' with h | h
          · left; exact List.mem_cons_of_mem _ h
          · right; exact h

/-- The dangling-parenthesis fix yields input characters or `(б/у)`
characters. -/
lemma buParenFix_mem (l : List Char) (x : Char) (hx : x ∈ buParenFix l) :
    x ∈ l ∨ x ∈ "(б/у)".data := by
  unfold buParenFix at hx
  split_ifs at hx with hc
  · exact replaceSeqAll_mem _ _ _ _ x hx
  · left; exact hx

/-- `rsplit(" ", 1)[0]` only removes characters. -/
lemma dropAfterLastSpace_subset (h : List Char) :
    ∀ x ∈ dropAfterLastSpace h, x ∈ h := by
  intro x hx
  unfold dropAfterLastSpace at hx
  cases hm : h.reverse.dropWhile (fun c => c ≠ ' ') with
  | nil => rw [hm] at hx; exact hx
  | cons y r2 =>
    rw [hm] at hx
    dsimp only at hx
    rw [List.mem_reverse] at hx
    have : x ∈ y :: r2 := List.mem_cons_of_mem _ hx
    rw [← hm] at this
    have := (List.dropWhile_sublist _).subset this
    rw [List.mem_reverse] at this
    exact this

/-- The length cap only removes characters. -/
lemma truncate160_subset (l : List Char) : ∀ x ∈ truncate160 l, x ∈ l := by
  intro x hx
  unfold truncate160 at hx
  split_ifs at hx with hl
  · exact List.take_subset _ _ (dropAfterLastSpace_subset _ x hx)
  · exact hx

/-- `rsplit(" ", 1)[0]` does not lengthen its input. -/
lemma dropAfterLastSpace_length (h : List Char) :
    (dropAfterLastSpace h).length ≤ h.length := by
  unfold dropAfterLastSpace
  cases hm : h.reverse.dropWhile (fun c => c ≠ ' ') with
  | nil => exact le_refl _
  | cons y r2 =>
    dsimp only
    have hle : (h.reverse.dropWhile (fun c => c ≠ ' ')).length ≤ h.reverse.length :=
      (List.dropWhile_sublist _).length_le
    rw [hm] at hle
    simp only [List.length_cons, List.length_reverse] at hle
    rw [List.length_reverse]
    omega

/-- The output of the length cap has at most 160 characters. -/
lemma truncate160_length (l : List Char) : (truncate160 l).length ≤ 160 := by
  unfold truncate160
  split_ifs with hl
  · have h1 := dropAfterLastSpace_length (l.take 160)
    have h2 : (l.take 160).length ≤ 160 := by
      rw [List.length_take]
      omega
    omega
  · omega

/-- The first kept element of `dropWhile (· ≠ ' ')` is a space. -/
lemma dropWhile_ne_space (l : List Char) :
    l.dropWhile (fun c => c ≠ ' ') = [] ∨
      ∃ r2, l.dropWhile (fun c => c ≠ ' ') = ' ' :: r2 := by
  induction l with
  | nil => left; rfl
  | cons c cs ih =>
    by_cases hc : c = ' '
    · subst hc
      right
      exact ⟨cs, by rw [List.dropWhile_cons, if_neg (by simp)]⟩
    · rw [List.dropWhile_cons, if_pos (by simp [hc])]
      exact ih

/-- Structure of the length cap: the pre-truncation title is the output
followed by a rest that is empty, starts with the space at which the cut was
made, or — when the first 160 characters contain no space — is the hard
remainder of a mid-word cut. -/
lemma truncate160_boundary (l : List Char) :
    ∃ r, l = truncate160 l ++ r ∧
      (r = [] ∨ r.head? = some ' ' ∨ ' ' ∉ l.take 160) := by
  unfold truncate160
  split_ifs with hl
  · unfold dropAfterLastSpace
    rcases dropWhile_ne_space (l.take 160).reverse with hnil | ⟨r2, hr2⟩
    · rw [hnil]
      refine ⟨l.drop 160, by rw [List.take_append_drop], Or.inr (Or.inr ?_)⟩
      intro hsp
      have := List.dropWhile_eq_nil_iff.mp hnil ' ' (List.mem_reverse.mpr hsp)
      simp at this
    · rw [hr2]
      have hsplit : (l.take 160).reverse.takeWhile (fun c => c ≠ ' ') ++
          (l.take 160).reverse.dropWhile (fun c => c ≠ ' ') = (l.take 160).reverse :=
        List.takeWhile_append_dropWhile _ _
      rw [hr2] at hsplit
      have h1 : l.take 160 =
          r2.reverse ++ ' ' :: ((l.take 160).reverse.takeWhile (fun c => c ≠ ' ')).reverse := by
        conv_lhs => rw [← List.reverse_reverse (l.take 160), ← hsplit]
        rw [List.reverse_append, List.reverse_cons, List.append_assoc]
        simp
      refine ⟨' ' :: (((l.take 160).reverse.takeWhile (fun c => c ≠ ' ')).reverse ++ l.drop 160),
        ?_, Or.inr (Or.inl rfl)⟩
      rw [← List.cons_append, ← List.append_assoc, ← h1, List.take_append_drop]
  · exact ⟨[], by simp, Or.inl rfl⟩

/-- The full `_clean_title` output without the length cap contains no
forbidden character. -/
lemma clean_title_pre_not_banned (t : List Char) :
    ∀ x ∈ clean_title_pre t, bannedChar x = false := by
  intro x hx
  simp only [clean_title_pre, collapseWs] at hx
  rcases buParenFix_mem _ x hx with hx1 | hx1
  · rcases gbSubF_mem _ _ x hx1 with hx2 | hx2
    · rcases commaGbSubF_mem _ _ x hx2 with hx3 | hx3
      · rcases buSubF_mem _ _ _ x hx3 with hx4 | hx4
        · have hx5 := dropCategoryWord_subset _ x hx4
          rcases collapseWsF_mem _ _ x hx5 with hx6 | hx6
          · exact stage3_not_banned t x (stripChars_subset _ _ x hx6)
          · subst hx6; decide
        · exact (by decide : ∀ y ∈ [' ', '(', 'б', '/', 'у', ')'], bannedChar y = false) x hx4
      · subst hx3; decide
    · exact (by decide : ∀ y ∈ [' ', 'Г', 'Б'], bannedChar y = false) x hx2
  · exact (by decide : ∀ y ∈ "(б/у)".data, bannedChar y = false) x hx1

/-- Claim C5, counterexample: a 200-character space-free title is hard-cut at
160 characters in the middle of the word — the character that follows the cut
in the pre-truncation title is `a`, not a word boundary. -/
theorem C5_counterexample :
    clean_title_pre (List.replicate 200 'a') = List.replicate 200 'a' ∧
    clean_title (List.replicate 200 'a') = List.replicate 160 'a' ∧
    (List.replicate 200 'a' : List Char)[160]? = some 'a' := by
  exact ⟨by decide, by decide, by decide⟩

/-- Claim C5, amended: every cleaned title is free of U+00A0, U+200B..U+200F,
U+202A..U+202C and U+2060 and has length at most 160; the truncation to 160
falls on a word boundary (the rest of the pre-truncation title is empty or
begins with the space at which the cut was made) whenever the first 160
characters contain a space, and is a hard mid-word cut otherwise. -/
theorem C5_clean_title_amended (t : List Char) :
    (∀ c ∈ clean_title t, bannedChar c = false) ∧
    (clean_title t).length ≤ 160 ∧
    (∃ r, clean_title_pre t = clean_title t ++ r ∧
      (r = [] ∨ r.head? = some ' ' ∨ ' ' ∉ (clean_title_pre t).take 160)) := by
  refine ⟨?_, ?_, ?_⟩
  · intro c hc
    exact clean_title_pre_not_banned t c (truncate160_subset _ c hc)
  · exact truncate160_length _
  · exact truncate160_boundary (clean_title_pre t)

end PriceWise
